import Mathlib

/-!
Verification of the Ukrainian text-processing core of `ukr-learn`
(`src/core/text_processor.py`), shallowly embedded in Lean.

Strings are modelled as lists of Unicode code points (`List Nat`), which
matches Python semantics for `len`, indexing and slicing.  The Unicode
data consulted by `unicodedata` (canonical decompositions, the Mn general
category, `str.lower`) is modelled for the code-point repertoire this
program processes: basic Cyrillic U+0400..U+0491, ASCII, and the
combining diacritical marks U+0300..U+036F (plus the Cyrillic combining
marks U+0483..U+0487).  Outside that repertoire characters are inert
(no decomposition, not marks, unaffected by lowercasing), which agrees
with Unicode for every character class the word pattern can produce.
-/

/-- Unicode general category Mn (Mark, Nonspacing) membership, restricted
to the modelled repertoire: the Combining Diacritical Marks block
U+0300..U+036F and the Cyrillic combining marks U+0483..U+0487. -/
def isMn (c : Nat) : Bool :=
  decide ((0x300 ≤ c ∧ c ≤ 0x36F) ∨ (0x483 ≤ c ∧ c ≤ 0x487))

/-- Canonical (NFD) decomposition of a single code point, per UnicodeData:
the precomposed basic Cyrillic letters decompose into a base letter plus a
nonspacing mark; every other modelled code point is its own decomposition. -/
def nfdChar (c : Nat) : List Nat :=
  if c = 0x400 then [0x415, 0x300]      -- Ѐ = Е + grave
  else if c = 0x401 then [0x415, 0x308] -- Ё = Е + diaeresis
  else if c = 0x403 then [0x413, 0x301] -- Ѓ = Г + acute
  else if c = 0x407 then [0x406, 0x308] -- Ї = І + diaeresis
  else if c = 0x40C then [0x41A, 0x301] -- Ќ = К + acute
  else if c = 0x40D then [0x418, 0x300] -- Ѝ = И + grave
  else if c = 0x40E then [0x423, 0x306] -- Ў = У + breve
  else if c = 0x419 then [0x418, 0x306] -- Й = И + breve
  else if c = 0x439 then [0x438, 0x306] -- й = и + breve
  else if c = 0x450 then [0x435, 0x300] -- ѐ = е + grave
  else if c = 0x451 then [0x435, 0x308] -- ё = е + diaeresis
  else if c = 0x453 then [0x433, 0x301] -- ѓ = г + acute
  else if c = 0x457 then [0x456, 0x308] -- ї = і + diaeresis
  else if c = 0x45C then [0x43A, 0x301] -- ќ = к + acute
  else if c = 0x45D then [0x438, 0x300] -- ѝ = и + grave
  else if c = 0x45E then [0x443, 0x306] -- ў = у + breve
  else [c]

/-- `unicodedata.normalize('NFD', text)` on the modelled repertoire:
decompose every code point canonically. -/
def nfd (s : List Nat) : List Nat :=
  (s.map nfdChar).flatten

/-- Primary composite for a base letter followed by a nonspacing mark
(the inverse of `nfdChar`), used by NFC recomposition. -/
def composeChar (b m : Nat) : Option Nat :=
  if b = 0x415 ∧ m = 0x300 then some 0x400
  else if b = 0x415 ∧ m = 0x308 then some 0x401
  else if b = 0x413 ∧ m = 0x301 then some 0x403
  else if b = 0x406 ∧ m = 0x308 then some 0x407
  else if b = 0x41A ∧ m = 0x301 then some 0x40C
  else if b = 0x418 ∧ m = 0x300 then some 0x40D
  else if b = 0x423 ∧ m = 0x306 then some 0x40E
  else if b = 0x418 ∧ m = 0x306 then some 0x419
  else if b = 0x438 ∧ m = 0x306 then some 0x439
  else if b = 0x435 ∧ m = 0x300 then some 0x450
  else if b = 0x435 ∧ m = 0x308 then some 0x451
  else if b = 0x433 ∧ m = 0x301 then some 0x453
  else if b = 0x456 ∧ m = 0x308 then some 0x457
  else if b = 0x43A ∧ m = 0x301 then some 0x45C
  else if b = 0x438 ∧ m = 0x300 then some 0x45D
  else if b = 0x443 ∧ m = 0x306 then some 0x45E
  else none

/-- Worker for NFC canonical composition: compose a pending starter with
the following mark when a primary composite exists. -/
def nfcGo : Nat → List Nat → List Nat
  | a, [] => [a]
  | a, b :: rest =>
    match composeChar a b with
    | some c => nfcGo c rest
    | none => a :: nfcGo b rest

/-- `unicodedata.normalize('NFC', text)` on the modelled repertoire. -/
def nfc : List Nat → List Nat
  | [] => []
  | a :: rest => nfcGo a rest

/-- `strip_accents` from `src/core/text_processor.py`: normalize to NFD,
remove every code point of category Mn, then normalize back to NFC. -/
def strip_accents (text : List Nat) : List Nat :=
  let normalized := nfd text
  let stripped := normalized.filter (fun c => !(isMn c))
  nfc stripped

/-- `str.lower` on a single code point, restricted to the modelled
repertoire: basic Cyrillic uppercase U+0410..U+042F and U+0400..U+040F,
Ґ U+0490, and ASCII A..Z; everything else is unchanged. -/
def lowerChar (c : Nat) : Nat :=
  if 0x410 ≤ c ∧ c ≤ 0x42F then c + 0x20
  else if 0x400 ≤ c ∧ c ≤ 0x40F then c + 0x50
  else if c = 0x490 then 0x491
  else if 0x41 ≤ c ∧ c ≤ 0x5A then c + 0x20
  else c

/-- `str.lower` on the modelled repertoire (code-point-wise). -/
def lower (s : List Nat) : List Nat :=
  s.map lowerChar

/-- `WordStage` from `src/core/models.py`. -/
inductive WordStage : Type
  | NEW
  | LEARNING
  | KNOWN
deriving DecidableEq

/-- `Token` from `src/core/text_processor.py`.  Python's `end` field is a
Lean keyword and is rendered `endPos`. -/
structure Token : Type where
  text : List Nat
  start : Nat
  endPos : Nat
  is_word : Bool
deriving DecidableEq

/-- `Token.normalized`: lowercase, accent-stripped form used for lookup. -/
def Token.normalized (t : Token) : List Nat :=
  strip_accents (lower t.text)

/-- `AnnotatedToken`: a `Token` plus a vocabulary stage. -/
structure AnnotatedToken extends Token where
  stage : WordStage := WordStage.NEW
deriving DecidableEq

/-- `AnnotatedToken.normalized` (inherited from `Token` in the source). -/
def AnnotatedToken.normalized (t : AnnotatedToken) : List Nat :=
  t.toToken.normalized

/-- `AnnotatedText`: original text plus annotated tokens. -/
structure AnnotatedText : Type where
  original : List Nat
  tokens : List AnnotatedToken
deriving DecidableEq

/-- First character class of `TextProcessor.WORD_PATTERN`, the regex
`[а-яіїєґА-ЯІЇЄҐ][а-яіїєґА-ЯІЇЄҐ'ʼ̀-ͯ]*`: a Ukrainian Cyrillic
letter in either case. -/
def isWordStart (c : Nat) : Bool :=
  decide ((0x430 ≤ c ∧ c ≤ 0x44F) ∨ c = 0x456 ∨ c = 0x457 ∨ c = 0x454 ∨ c = 0x491
    ∨ (0x410 ≤ c ∧ c ≤ 0x42F) ∨ c = 0x406 ∨ c = 0x407 ∨ c = 0x404 ∨ c = 0x490)

/-- Continuation character class of `WORD_PATTERN`: a Ukrainian Cyrillic
letter, an apostrophe (ASCII or U+02BC), or a combining mark
U+0300..U+036F. -/
def isWordCont (c : Nat) : Bool :=
  isWordStart c || decide (c = 0x27 ∨ c = 0x2BC ∨ (0x300 ≤ c ∧ c ≤ 0x36F))

/-- A regex match as produced by `WORD_PATTERN.finditer`: the matched
substring (`group()`) with its `start()` and `end()` offsets. -/
structure RegexMatch : Type where
  text : List Nat
  start : Nat
  endPos : Nat
deriving DecidableEq

/-- Single left-to-right scan implementing `WORD_PATTERN.finditer`:
leftmost, non-overlapping, greedy (maximal-munch) matches.  The third
argument carries the word being matched (reversed) and its start offset,
if the scanner is inside a match. -/
def finditerGo : List Nat → Nat → Option (List Nat × Nat) → List RegexMatch
  | [], _, none => []
  | [], _, some (w, st) => [⟨w.reverse, st, st + w.length⟩]
  | c :: rest, i, none =>
    if isWordStart c then finditerGo rest (i + 1) (some ([c], i))
    else finditerGo rest (i + 1) none
  | c :: rest, i, some (w, st) =>
    if isWordCont c then finditerGo rest (i + 1) (some (c :: w, st))
    else ⟨w.reverse, st, i⟩ :: finditerGo rest (i + 1) none

/-- `WORD_PATTERN.finditer` starting the offset count at `i`. -/
def finditerFrom (s : List Nat) (i : Nat) : List RegexMatch :=
  finditerGo s i none

/-- `WORD_PATTERN.finditer(text)`. -/
def finditer (s : List Nat) : List RegexMatch :=
  finditerFrom s 0

/-- Python slicing `text[a:b]` (for `a ≤ b ≤ len text`). -/
def pySlice (s : List Nat) (a b : Nat) : List Nat :=
  (s.drop a).take (b - a)

/-- The token-building loop of `TextProcessor.tokenize`: walk the match
list, emitting a non-word token for any gap before each match, the word
token for the match itself, and a final non-word token for trailing text. -/
def fillTokens (text : List Nat) : List RegexMatch → Nat → List Token
  | [], last_end =>
    if last_end < text.length then
      [⟨pySlice text last_end text.length, last_end, text.length, false⟩]
    else []
  | m :: ms, last_end =>
    (if last_end < m.start then
      [(⟨pySlice text last_end m.start, last_end, m.start, false⟩ : Token)]
    else []) ++ ⟨m.text, m.start, m.endPos, true⟩ :: fillTokens text ms m.endPos

/-- `TextProcessor.tokenize`. -/
def tokenize (text : List Nat) : List Token :=
  fillTokens text (finditer text) 0

/-- `TextProcessor.annotate`: tokenize, then give each word token the
stage determined by its normalized form against the two sets, and each
non-word token the neutral stage `NEW`. -/
def annotate (text : List Nat) (known_words learning_words : List (List Nat)) :
    AnnotatedText :=
  ⟨text, (tokenize text).map (fun token =>
    ⟨token,
      if token.is_word then
        if token.normalized ∈ known_words then WordStage.KNOWN
        else if token.normalized ∈ learning_words then WordStage.LEARNING
        else WordStage.NEW
      else WordStage.NEW⟩)⟩

/-- `TextProcessor.extract_words`: lowercased, accent-stripped text of
every `WORD_PATTERN` match, in order. -/
def extract_words (text : List Nat) : List (List Nat) :=
  (finditer text).map (fun m => strip_accents (lower m.text))

/-- `TextProcessor.count_words`. -/
def count_words (text : List Nat) : Nat :=
  (finditer text).length

/-- `TextProcessor.calculate_known_percentage`.  Python's float division
is modelled exactly over `ℚ`. -/
def calculate_known_percentage (text : List Nat) (known_words : List (List Nat)) : ℚ :=
  let words := extract_words text
  if words = [] then 0
  else ((words.countP (fun w => decide (w ∈ known_words)) : ℚ) / words.length) * 100

/-- Total order on code-point lists: Python string comparison
(lexicographic by code point, a proper prefix sorts first). -/
def lexLe : List Nat → List Nat → Bool
  | [], _ => true
  | _ :: _, [] => false
  | a :: as, b :: bs => if a < b then true else if b < a then false else lexLe as bs

/-- Deduplication, modelling the `set(...)` conversion in
`get_unknown_words` (keeps one copy of every element). -/
def dedup : List (List Nat) → List (List Nat)
  | [] => []
  | x :: xs => if x ∈ xs then dedup xs else x :: dedup xs

/-- Ordered insertion, the building block of the `sorted(...)` model. -/
def insertSorted (w : List Nat) : List (List Nat) → List (List Nat)
  | [] => [w]
  | x :: xs => if lexLe w x then w :: x :: xs else x :: insertSorted w xs

/-- Python `sorted` on a list of strings (insertion sort; the output of
sorting a duplicate-free list under a total order is unique, so any
sorting algorithm models `sorted`). -/
def sortLex (l : List (List Nat)) : List (List Nat) :=
  l.foldr insertSorted []

/-- `TextProcessor.get_unknown_words`: unique extracted words minus both
sets, sorted ascending. -/
def get_unknown_words (text : List Nat) (known_words learning_words : List (List Nat)) :
    List (List Nat) :=
  let words := dedup (extract_words text)
  let unknown := words.filter (fun w => decide (w ∉ known_words ∧ w ∉ learning_words))
  sortLex unknown

/-- Python `text.split('\n')` (code point 0x0A). -/
def splitOnNl : List Nat → List (List Nat)
  | [] => [[]]
  | c :: rest =>
    if c = 0x0A then [] :: splitOnNl rest
    else
      match splitOnNl rest with
      | [] => [[c]]
      | l :: ls => (c :: l) :: ls

/-- Inverse of `splitOnNl`: rejoin lines with a newline between them. -/
def joinNl : List (List Nat) → List Nat
  | [] => []
  | [l] => l
  | l :: l2 :: ls => l ++ 0x0A :: joinNl (l2 :: ls)

/-- The offset rewrite of `iter_lines_annotated`: add the running offset
to a token's `start` and `end`. -/
def shiftA (off : Nat) (t : AnnotatedToken) : AnnotatedToken :=
  { t with start := t.start + off, endPos := t.endPos + off }

/-- Loop body of `TextProcessor.iter_lines_annotated`: annotate each line
and shift its token offsets by the running offset, which grows by the
line length plus one for the consumed newline. -/
def iterLinesFrom (known_words learning_words : List (List Nat)) :
    List (List Nat) → Nat → List (List AnnotatedToken)
  | [], _ => []
  | line :: rest, offset =>
    ((annotate line known_words learning_words).tokens.map (shiftA offset))
      :: iterLinesFrom known_words learning_words rest (offset + line.length + 1)

/-- `TextProcessor.iter_lines_annotated` (the generator materialized as a
list, one entry per line). -/
def iter_lines_annotated (text : List Nat) (known_words learning_words : List (List Nat)) :
    List (List AnnotatedToken) :=
  iterLinesFrom known_words learning_words (splitOnNl text) 0

/-- Sum of the lengths of the first `j` lines plus one newline each:
the absolute offset of line `j` in the original text. -/
def priorLen (lines : List (List Nat)) (j : Nat) : Nat :=
  ((lines.take j).map (fun l => l.length + 1)).sum

/-- Well-formedness of a regex match list over `text` relative to a lower
bound: matches sit at increasing offsets at or after the bound, within the
text, and each match's `text` is the corresponding slice of `text`. -/
def MatchesOK (text : List Nat) : Nat → List RegexMatch → Prop
  | _, [] => True
  | lb, m :: ms => lb ≤ m.start ∧ m.start ≤ m.endPos ∧ m.endPos ≤ text.length
      ∧ pySlice text m.start m.endPos = m.text ∧ MatchesOK text m.endPos ms

/-- Shift a regex match by an offset (used to relate per-line matches to
absolute positions). -/
def shiftM (off : Nat) (m : RegexMatch) : RegexMatch :=
  ⟨m.text, m.start + off, m.endPos + off⟩

/-- The annotated word token that `annotate` produces for a word match. -/
def wordAnnotated (known_words learning_words : List (List Nat)) (m : RegexMatch) :
    AnnotatedToken :=
  ⟨⟨m.text, m.start, m.endPos, true⟩,
    if strip_accents (lower m.text) ∈ known_words then WordStage.KNOWN
    else if strip_accents (lower m.text) ∈ learning_words then WordStage.LEARNING
    else WordStage.NEW⟩

/-! ## Character-level facts about the modelled Unicode data -/

theorem isWordStart_isWordCont {c : Nat} (h : isWordStart c = true) :
    isWordCont c = true := by
  simp [isWordCont, h]

theorem nfdChar_eq_default {c : Nat} (h1 : c ≠ 0x400) (h2 : c ≠ 0x401) (h3 : c ≠ 0x403)
    (h4 : c ≠ 0x407) (h5 : c ≠ 0x40C) (h6 : c ≠ 0x40D) (h7 : c ≠ 0x40E) (h8 : c ≠ 0x419)
    (h9 : c ≠ 0x439) (h10 : c ≠ 0x450) (h11 : c ≠ 0x451) (h12 : c ≠ 0x453)
    (h13 : c ≠ 0x457) (h14 : c ≠ 0x45C) (h15 : c ≠ 0x45D) (h16 : c ≠ 0x45E) :
    nfdChar c = [c] := by
  unfold nfdChar
  rw [if_neg h1, if_neg h2, if_neg h3, if_neg h4, if_neg h5, if_neg h6, if_neg h7,
    if_neg h8, if_neg h9, if_neg h10, if_neg h11, if_neg h12, if_neg h13, if_neg h14,
    if_neg h15, if_neg h16]

theorem nfdKeys_or (c : Nat) :
    c = 0x400 ∨ c = 0x401 ∨ c = 0x403 ∨ c = 0x407 ∨ c = 0x40C ∨ c = 0x40D ∨ c = 0x40E
    ∨ c = 0x419 ∨ c = 0x439 ∨ c = 0x450 ∨ c = 0x451 ∨ c = 0x453 ∨ c = 0x457 ∨ c = 0x45C
    ∨ c = 0x45D ∨ c = 0x45E
    ∨ (c ≠ 0x400 ∧ c ≠ 0x401 ∧ c ≠ 0x403 ∧ c ≠ 0x407 ∧ c ≠ 0x40C ∧ c ≠ 0x40D
      ∧ c ≠ 0x40E ∧ c ≠ 0x419 ∧ c ≠ 0x439 ∧ c ≠ 0x450 ∧ c ≠ 0x451 ∧ c ≠ 0x453
      ∧ c ≠ 0x457 ∧ c ≠ 0x45C ∧ c ≠ 0x45D ∧ c ≠ 0x45E) := by
  omega

theorem nfdChar_stable {c d : Nat} (hd : d ∈ nfdChar c) : nfdChar d = [d] := by
  rcases nfdKeys_or c with h | h | h | h | h | h | h | h | h | h | h | h | h | h | h | h |
    ⟨n1, n2, n3, n4, n5, n6, n7, n8, n9, n10, n11, n12, n13, n14, n15, n16⟩
  · subst h; simp [nfdChar] at hd; rcases hd with rfl | rfl <;> decide
  · subst h; simp [nfdChar] at hd; rcases hd with rfl | rfl <;> decide
  · subst h; simp [nfdChar] at hd; rcases hd with rfl | rfl <;> decide
  · subst h; simp [nfdChar] at hd; rcases hd with rfl | rfl <;> decide
  · subst h; simp [nfdChar] at hd; rcases hd with rfl | rfl <;> decide
  · subst h; simp [nfdChar] at hd; rcases hd with rfl | rfl <;> decide
  · subst h; simp [nfdChar] at hd; rcases hd with rfl | rfl <;> decide
  · subst h; simp [nfdChar] at hd; rcases hd with rfl | rfl <;> decide
  · subst h; simp [nfdChar] at hd; rcases hd with rfl | rfl <;> decide
  · subst h; simp [nfdChar] at hd; rcases hd with rfl | rfl <;> decide
  · subst h; simp [nfdChar] at hd; rcases hd with rfl | rfl <;> decide
  · subst h; simp [nfdChar] at hd; rcases hd with rfl | rfl <;> decide
  · subst h; simp [nfdChar] at hd; rcases hd with rfl | rfl <;> decide
  · subst h; simp [nfdChar] at hd; rcases hd with rfl | rfl <;> decide
  · subst h; simp [nfdChar] at hd; rcases hd with rfl | rfl <;> decide
  · subst h; simp [nfdChar] at hd; rcases hd with rfl | rfl <;> decide
  · have hdef := nfdChar_eq_default n1 n2 n3 n4 n5 n6 n7 n8 n9 n10 n11 n12 n13 n14 n15 n16
    rw [hdef, List.mem_singleton] at hd
    subst hd
    exact hdef

theorem nfdChar_of_markfree {c : Nat} (h : ∀ d ∈ nfdChar c, isMn d = false) :
    nfdChar c = [c] := by
  rcases nfdKeys_or c with hc | hc | hc | hc | hc | hc | hc | hc | hc | hc | hc | hc | hc |
    hc | hc | hc | ⟨n1, n2, n3, n4, n5, n6, n7, n8, n9, n10, n11, n12, n13, n14, n15, n16⟩
  · subst hc; exact absurd (h 0x300 (by simp [nfdChar])) (by decide)
  · subst hc; exact absurd (h 0x308 (by simp [nfdChar])) (by decide)
  · subst hc; exact absurd (h 0x301 (by simp [nfdChar])) (by decide)
  · subst hc; exact absurd (h 0x308 (by simp [nfdChar])) (by decide)
  · subst hc; exact absurd (h 0x301 (by simp [nfdChar])) (by decide)
  · subst hc; exact absurd (h 0x300 (by simp [nfdChar])) (by decide)
  · subst hc; exact absurd (h 0x306 (by simp [nfdChar])) (by decide)
  · subst hc; exact absurd (h 0x306 (by simp [nfdChar])) (by decide)
  · subst hc; exact absurd (h 0x306 (by simp [nfdChar])) (by decide)
  · subst hc; exact absurd (h 0x300 (by simp [nfdChar])) (by decide)
  · subst hc; exact absurd (h 0x308 (by simp [nfdChar])) (by decide)
  · subst hc; exact absurd (h 0x301 (by simp [nfdChar])) (by decide)
  · subst hc; exact absurd (h 0x308 (by simp [nfdChar])) (by decide)
  · subst hc; exact absurd (h 0x301 (by simp [nfdChar])) (by decide)
  · subst hc; exact absurd (h 0x300 (by simp [nfdChar])) (by decide)
  · subst hc; exact absurd (h 0x306 (by simp [nfdChar])) (by decide)
  · exact nfdChar_eq_default n1 n2 n3 n4 n5 n6 n7 n8 n9 n10 n11 n12 n13 n14 n15 n16

theorem nfdChar_lowerChar (c : Nat) :
    nfdChar (lowerChar c) = (nfdChar c).map lowerChar := by
  rcases nfdKeys_or c with h | h | h | h | h | h | h | h | h | h | h | h | h | h | h | h |
    ⟨n1, n2, n3, n4, n5, n6, n7, n8, n9, n10, n11, n12, n13, n14, n15, n16⟩
  · subst h; decide
  · subst h; decide
  · subst h; decide
  · subst h; decide
  · subst h; decide
  · subst h; decide
  · subst h; decide
  · subst h; decide
  · subst h; decide
  · subst h; decide
  · subst h; decide
  · subst h; decide
  · subst h; decide
  · subst h; decide
  · subst h; decide
  · subst h; decide
  · rw [nfdChar_eq_default n1 n2 n3 n4 n5 n6 n7 n8 n9 n10 n11 n12 n13 n14 n15 n16]
    rw [List.map_singleton]
    apply nfdChar_eq_default
    all_goals unfold lowerChar
    all_goals split_ifs
    all_goals omega

theorem isMn_lowerChar (c : Nat) : isMn (lowerChar c) = isMn c := by
  unfold lowerChar
  split_ifs
  all_goals simp only [isMn, decide_eq_decide]
  all_goals omega

theorem composeChar_none {b m : Nat} (hm : isMn m = false) :
    composeChar b m = none := by
  have h0 : m ≠ 0x300 := fun e => absurd (e ▸ hm) (by decide)
  have h1 : m ≠ 0x301 := fun e => absurd (e ▸ hm) (by decide)
  have h6 : m ≠ 0x306 := fun e => absurd (e ▸ hm) (by decide)
  have h8 : m ≠ 0x308 := fun e => absurd (e ▸ hm) (by decide)
  unfold composeChar
  rw [if_neg (fun h => h0 h.2), if_neg (fun h => h8 h.2), if_neg (fun h => h1 h.2),
    if_neg (fun h => h8 h.2), if_neg (fun h => h1 h.2), if_neg (fun h => h0 h.2),
    if_neg (fun h => h6 h.2), if_neg (fun h => h6 h.2), if_neg (fun h => h6 h.2),
    if_neg (fun h => h0 h.2), if_neg (fun h => h8 h.2), if_neg (fun h => h1 h.2),
    if_neg (fun h => h8 h.2), if_neg (fun h => h1 h.2), if_neg (fun h => h0 h.2),
    if_neg (fun h => h6 h.2)]

/-! ## strip_accents: structure, idempotence, commutation with lower -/

theorem nfcGo_markfree :
    ∀ (l : List Nat) (a : Nat), (∀ c ∈ l, isMn c = false) → nfcGo a l = a :: l := by
  intro l
  induction l with
  | nil => intro a _; rfl
  | cons b rest ih =>
    intro a h
    unfold nfcGo
    rw [composeChar_none (h b (List.mem_cons_self _ _)),
      ih b (fun c hc => h c (List.mem_cons_of_mem _ hc))]

theorem nfc_markfree {l : List Nat} (h : ∀ c ∈ l, isMn c = false) : nfc l = l := by
  cases l with
  | nil => rfl
  | cons a rest =>
    unfold nfc
    exact nfcGo_markfree rest a (fun c hc => h c (List.mem_cons_of_mem _ hc))

theorem strip_accents_eq_filter (s : List Nat) :
    strip_accents s = (nfd s).filter (fun c => !(isMn c)) := by
  unfold strip_accents
  apply nfc_markfree
  intro c hc
  simp only [List.mem_filter, Bool.not_eq_true'] at hc
  exact hc.2

theorem mem_nfd {s : List Nat} {c : Nat} (hc : c ∈ nfd s) :
    ∃ d ∈ s, c ∈ nfdChar d := by
  simp only [nfd, List.mem_flatten, List.mem_map] at hc
  obtain ⟨l, ⟨d, hd, rfl⟩, hcl⟩ := hc
  exact ⟨d, hd, hcl⟩

theorem nfd_of_stable {l : List Nat} (h : ∀ c ∈ l, nfdChar c = [c]) : nfd l = l := by
  induction l with
  | nil => rfl
  | cons c rest ih =>
    unfold nfd
    simp only [List.map_cons, List.flatten_cons]
    rw [h c (List.mem_cons_self _ _)]
    have hr := ih (fun d hd => h d (List.mem_cons_of_mem _ hd))
    unfold nfd at hr
    rw [List.singleton_append, hr]

theorem strip_accents_idem (s : List Nat) :
    strip_accents (strip_accents s) = strip_accents s := by
  rw [strip_accents_eq_filter s]
  set t := (nfd s).filter (fun c => !(isMn c)) with ht
  have hmem : ∀ c ∈ t, isMn c = false ∧ nfdChar c = [c] := by
    intro c hc
    rw [ht] at hc
    simp only [List.mem_filter, Bool.not_eq_true'] at hc
    obtain ⟨d, _, hcd⟩ := mem_nfd hc.1
    exact ⟨hc.2, nfdChar_stable hcd⟩
  rw [strip_accents_eq_filter t, nfd_of_stable (fun c hc => (hmem c hc).2)]
  exact List.filter_eq_self.mpr (fun c hc => by simp [(hmem c hc).1])

theorem nfd_lower (s : List Nat) : nfd (lower s) = lower (nfd s) := by
  unfold nfd lower
  rw [List.map_flatten, List.map_map, List.map_map]
  congr 1
  apply List.map_congr_left
  intro c _
  exact nfdChar_lowerChar c

theorem strip_accents_lower (s : List Nat) :
    strip_accents (lower s) = lower (strip_accents s) := by
  rw [strip_accents_eq_filter, strip_accents_eq_filter, nfd_lower]
  unfold lower
  rw [List.filter_map]
  congr 1
  · apply List.filter_congr
    intro c _
    simp [Function.comp, isMn_lowerChar]

theorem mem_nfd_of {s : List Nat} {c d : Nat} (hc : c ∈ s) (hd : d ∈ nfdChar c) :
    d ∈ nfd s := by
  simp only [nfd, List.mem_flatten]
  exact ⟨nfdChar c, List.mem_map_of_mem _ hc, hd⟩

/-- C9: `stripAccents` is idempotent, and on "ме́не"
(м, е, U+0301 combining acute, н, е) it yields "мене". -/
theorem c9_strip_accents_idempotent :
    (∀ s : List Nat, strip_accents (strip_accents s) = strip_accents s)
    ∧ strip_accents [0x43C, 0x435, 0x301, 0x43D, 0x435] = [0x43C, 0x435, 0x43D, 0x435] :=
  ⟨strip_accents_idem, by decide⟩

/-- C4 counterexample: the input "й" (U+0439, a single code point, not a
combining mark) is altered by `strip_accents` to "и" (U+0438), and the
two strings are not canonically equivalent (their NFD and NFC forms
differ), refuting both "strings containing no combining marks are
returned unchanged (up to normalization form)" and "code points outside
Mark-Nonspacing are not altered". -/
theorem c4_counterexample :
    strip_accents [0x439] = [0x438] ∧ isMn 0x439 = false
    ∧ nfd [0x439] ≠ nfd [0x438] ∧ nfc [0x439] ≠ nfc [0x438] := by
  decide

/-- C4 amended: `stripAccents` maps the empty string to the empty string;
any string whose canonical (NFD) decomposition contains no nonspacing
marks is returned unchanged; and in general the result is exactly the NFD
decomposition with the nonspacing marks removed — so code points outside
Mn survive only in their decomposed form, and precomposed letters whose
decomposition contains a mark (such as й or ї) lose that mark. -/
theorem c4_strip_accents_amended (s : List Nat) :
    strip_accents [] = []
    ∧ ((∀ c ∈ nfd s, isMn c = false) → strip_accents s = s)
    ∧ strip_accents s = (nfd s).filter (fun c => !(isMn c)) := by
  refine ⟨rfl, ?_, strip_accents_eq_filter s⟩
  intro h
  have hstable : ∀ c ∈ s, nfdChar c = [c] := by
    intro c hc
    exact nfdChar_of_markfree (fun d hd => h d (mem_nfd_of hc hd))
  rw [strip_accents_eq_filter, nfd_of_stable hstable]
  apply List.filter_eq_self.mpr
  intro c hc
  have hm : isMn c = false := h c (by rw [nfd_of_stable hstable]; exact hc)
  simp [hm]

/-- C4 witness: a markless Cyrillic string is fixed by `strip_accents`. -/
theorem c4_strip_accents_amended_witness :
    strip_accents [0x43F, 0x440] = [0x43F, 0x440] :=
  (c4_strip_accents_amended [0x43F, 0x440]).2.1 (by decide)

/-! ## Ordering machinery for get_unknown_words -/

theorem lexLe_refl (l : List Nat) : lexLe l l = true := by
  induction l with
  | nil => rfl
  | cons x xs ih =>
    unfold lexLe
    rw [if_neg (lt_irrefl x), if_neg (lt_irrefl x)]
    exact ih

theorem lexLe_total : ∀ a b : List Nat, lexLe a b = true ∨ lexLe b a = true := by
  intro a
  induction a with
  | nil => intro b; exact Or.inl rfl
  | cons x xs ih =>
    intro b
    cases b with
    | nil => exact Or.inr rfl
    | cons y ys =>
      unfold lexLe
      rcases Nat.lt_trichotomy x y with h | h | h
      · left; rw [if_pos h]
      · subst h
        simp only [if_neg (lt_irrefl x)]
        exact ih ys
      · right; rw [if_pos h]

theorem lexLe_trans : ∀ a b c : List Nat,
    lexLe a b = true → lexLe b c = true → lexLe a c = true := by
  intro a
  induction a with
  | nil => intro b c _ _; rfl
  | cons x xs ih =>
    intro b c hab hbc
    cases b with
    | nil => simp [lexLe] at hab
    | cons y ys =>
      cases c with
      | nil => simp [lexLe] at hbc
      | cons z zs =>
        unfold lexLe at hab hbc ⊢
        rcases Nat.lt_trichotomy x y with h1 | h1 | h1
        · rcases Nat.lt_trichotomy y z with h2 | h2 | h2
          · rw [if_pos (Nat.lt_trans h1 h2)]
          · subst h2; rw [if_pos h1]
          · rw [if_neg (by omega), if_pos h2] at hbc
            exact absurd hbc (by simp)
        · subst h1
          rw [if_neg (lt_irrefl x), if_neg (lt_irrefl x)] at hab
          rcases Nat.lt_trichotomy x z with h2 | h2 | h2
          · rw [if_pos h2]
          · subst h2
            rw [if_neg (lt_irrefl x), if_neg (lt_irrefl x)] at hbc ⊢
            exact ih ys zs hab hbc
          · rw [if_neg (by omega), if_pos h2] at hbc
            exact absurd hbc (by simp)
        · rw [if_neg (by omega), if_pos h1] at hab
          exact absurd hab (by simp)

theorem mem_insertSorted {v w : List Nat} :
    ∀ l, v ∈ insertSorted w l ↔ v = w ∨ v ∈ l := by
  intro l
  induction l with
  | nil => simp [insertSorted]
  | cons x xs ih =>
    unfold insertSorted
    by_cases h : lexLe w x = true
    · rw [if_pos h]
      simp [List.mem_cons]
    · rw [if_neg h]
      simp only [List.mem_cons, ih]
      tauto

theorem pairwise_insertSorted {w : List Nat} {l : List (List Nat)}
    (hl : l.Pairwise (fun a b => lexLe a b = true)) :
    (insertSorted w l).Pairwise (fun a b => lexLe a b = true) := by
  induction l with
  | nil => simp [insertSorted]
  | cons x xs ih =>
    rcases List.pairwise_cons.mp hl with ⟨hx, hxs⟩
    unfold insertSorted
    by_cases h : lexLe w x = true
    · rw [if_pos h]
      refine List.pairwise_cons.mpr ⟨?_, hl⟩
      intro b hb
      rcases List.mem_cons.mp hb with rfl | hb
      · exact h
      · exact lexLe_trans w x b h (hx b hb)
    · rw [if_neg h]
      refine List.pairwise_cons.mpr ⟨?_, ih hxs⟩
      intro b hb
      rcases (mem_insertSorted _).mp hb with rfl | hb
      · rcases lexLe_total b x with h1 | h1
        · exact absurd h1 h
        · exact h1
      · exact hx b hb

theorem nodup_insertSorted {w : List Nat} {l : List (List Nat)}
    (hw : w ∉ l) (hl : l.Nodup) : (insertSorted w l).Nodup := by
  induction l with
  | nil => simp [insertSorted]
  | cons x xs ih =>
    rcases List.nodup_cons.mp hl with ⟨hx, hxs⟩
    have hwx : w ≠ x := fun e => hw (e ▸ List.mem_cons_self x xs)
    have hwxs : w ∉ xs := fun e => hw (List.mem_cons_of_mem _ e)
    unfold insertSorted
    by_cases h : lexLe w x = true
    · rw [if_pos h]
      exact List.nodup_cons.mpr ⟨hw, hl⟩
    · rw [if_neg h]
      refine List.nodup_cons.mpr ⟨?_, ih hwxs hxs⟩
      intro hmem
      rcases (mem_insertSorted _).mp hmem with e | e
      · exact hwx e.symm
      · exact hx e

theorem mem_sortLex {v : List Nat} : ∀ l, v ∈ sortLex l ↔ v ∈ l := by
  intro l
  induction l with
  | nil => simp [sortLex]
  | cons x xs ih =>
    rw [show sortLex (x :: xs) = insertSorted x (sortLex xs) from rfl,
      mem_insertSorted]
    simp [ih, List.mem_cons]

theorem pairwise_sortLex (l : List (List Nat)) :
    (sortLex l).Pairwise (fun a b => lexLe a b = true) := by
  induction l with
  | nil => simp [sortLex]
  | cons x xs ih =>
    rw [show sortLex (x :: xs) = insertSorted x (sortLex xs) from rfl]
    exact pairwise_insertSorted ih

theorem nodup_sortLex {l : List (List Nat)} (hl : l.Nodup) : (sortLex l).Nodup := by
  induction l with
  | nil => simp [sortLex]
  | cons x xs ih =>
    rcases List.nodup_cons.mp hl with ⟨hx, hxs⟩
    rw [show sortLex (x :: xs) = insertSorted x (sortLex xs) from rfl]
    exact nodup_insertSorted (fun e => hx ((mem_sortLex xs).mp e)) (ih hxs)

theorem mem_dedup {v : List Nat} : ∀ l, v ∈ dedup l ↔ v ∈ l := by
  intro l
  induction l with
  | nil => simp [dedup]
  | cons x xs ih =>
    unfold dedup
    by_cases h : x ∈ xs
    · rw [if_pos h, ih]
      constructor
      · exact fun hv => List.mem_cons_of_mem _ hv
      · intro hv
        rcases List.mem_cons.mp hv with rfl | hv
        · exact h
        · exact hv
    · rw [if_neg h]
      simp [List.mem_cons, ih]

theorem nodup_dedup : ∀ l, (dedup l).Nodup := by
  intro l
  induction l with
  | nil => simp [dedup]
  | cons x xs ih =>
    unfold dedup
    by_cases h : x ∈ xs
    · rw [if_pos h]; exact ih
    · rw [if_neg h]
      exact List.nodup_cons.mpr ⟨fun hx => h ((mem_dedup xs).mp hx), ih⟩

/-- C7: `getUnknownWords` returns exactly the normalized word forms of the
text that are in neither set, with no duplicates, sorted ascending in
code-point order. -/
theorem c7_get_unknown_words (text : List Nat) (known_words learning_words : List (List Nat)) :
    (∀ w, w ∈ get_unknown_words text known_words learning_words ↔
      (w ∈ extract_words text ∧ w ∉ known_words ∧ w ∉ learning_words))
    ∧ (get_unknown_words text known_words learning_words).Nodup
    ∧ (get_unknown_words text known_words learning_words).Pairwise
        (fun a b => lexLe a b = true) := by
  simp only [get_unknown_words]
  refine ⟨?_, ?_, pairwise_sortLex _⟩
  · intro w
    rw [mem_sortLex, List.mem_filter, mem_dedup]
    simp
  · exact nodup_sortLex (List.Nodup.filter _ (nodup_dedup _))

/-- C7 witness: in "Тут є три слова" with known {тут} and learning {є},
the word "слова" is reported unknown. -/
theorem c7_get_unknown_words_witness :
    [0x441, 0x43B, 0x43E, 0x432, 0x430] ∈ get_unknown_words
      [0x422, 0x443, 0x442, 0x20, 0x454, 0x20, 0x442, 0x440, 0x438, 0x20,
        0x441, 0x43B, 0x43E, 0x432, 0x430]
      [[0x442, 0x443, 0x442]] [[0x454]] :=
  ((c7_get_unknown_words
      [0x422, 0x443, 0x442, 0x20, 0x454, 0x20, 0x442, 0x440, 0x438, 0x20,
        0x441, 0x43B, 0x43E, 0x432, 0x430]
      [[0x442, 0x443, 0x442]] [[0x454]]).1
    [0x441, 0x43B, 0x43E, 0x432, 0x430]).mpr (by decide)

/-! ## takeWhile / dropWhile helpers -/

theorem take_length_takeWhile (p : Nat → Bool) (l : List Nat) :
    l.take (l.takeWhile p).length = l.takeWhile p :=
  (List.prefix_iff_eq_take.mp (List.takeWhile_prefix p)).symm

theorem drop_length_takeWhile (p : Nat → Bool) (l : List Nat) :
    l.drop (l.takeWhile p).length = l.dropWhile p := by
  nth_rewrite 2 [← List.takeWhile_append_dropWhile (p := p) (l := l)]
  exact List.drop_left _ _

theorem length_takeWhile_le (p : Nat → Bool) (l : List Nat) :
    (l.takeWhile p).length ≤ l.length :=
  (List.takeWhile_sublist p).length_le

theorem length_dropWhile_le (p : Nat → Bool) (l : List Nat) :
    (l.dropWhile p).length ≤ l.length :=
  (List.dropWhile_sublist p).length_le

theorem takeWhile_append_break {p : Nat → Bool} {c : Nat} (a b : List Nat)
    (hc : p c = false) : (a ++ c :: b).takeWhile p = a.takeWhile p := by
  rw [List.takeWhile_append]
  split_ifs with h
  · have ha : a.takeWhile p = a := (List.takeWhile_prefix p).eq_of_length h
    rw [List.takeWhile_cons_of_neg (by simp [hc]), ha, List.append_nil]
  · rfl

theorem dropWhile_append_break {p : Nat → Bool} {c : Nat} (a b : List Nat)
    (hc : p c = false) : (a ++ c :: b).dropWhile p = a.dropWhile p ++ c :: b := by
  rw [List.dropWhile_append]
  split_ifs with h
  · have ha : a.dropWhile p = [] := by simpa [List.isEmpty_iff] using h
    rw [ha, List.dropWhile_cons_of_neg (by simp [hc]), List.nil_append]
  · rfl

/-! ## The maximal-munch step equation for finditer -/

theorem finditerGo_word :
    ∀ (rest w : List Nat) (st i : Nat), i = st + w.length →
    finditerGo rest i (some (w, st)) =
      ⟨w.reverse ++ rest.takeWhile isWordCont, st,
        i + (rest.takeWhile isWordCont).length⟩
        :: finditerFrom (rest.dropWhile isWordCont)
            (i + (rest.takeWhile isWordCont).length) := by
  intro rest
  induction rest with
  | nil =>
    intro w st i hi
    subst hi
    simp [finditerGo, finditerFrom]
  | cons c cs ih =>
    intro w st i hi
    by_cases hc : isWordCont c = true
    · show (if isWordCont c then finditerGo cs (i + 1) (some (c :: w, st))
        else _) = _
      rw [if_pos hc]
      rw [ih (c :: w) st (i + 1) (by simp [List.length_cons]; omega)]
      rw [List.takeWhile_cons_of_pos hc, List.dropWhile_cons_of_pos hc]
      simp only [List.reverse_cons, List.length_cons, List.append_assoc,
        List.singleton_append]
      have harith : i + 1 + (cs.takeWhile isWordCont).length
          = i + ((cs.takeWhile isWordCont).length + 1) := by omega
      rw [harith]
    · have hcf : isWordCont c = false := by simpa using hc
      show (if isWordCont c then _
        else RegexMatch.mk w.reverse st i :: finditerGo cs (i + 1) none) = _
      rw [if_neg hc]
      rw [List.takeWhile_cons_of_neg (by simp [hcf]),
        List.dropWhile_cons_of_neg (by simp [hcf])]
      simp only [List.length_nil, List.append_nil, Nat.add_zero]
      have hs : isWordStart c = false := by
        cases hb : isWordStart c
        · rfl
        · exact absurd (isWordStart_isWordCont hb) (by simp [hcf])
      show _ = _ :: finditerGo (c :: cs) i none
      show _ = _ :: (if isWordStart c then _ else finditerGo cs (i + 1) none)
      rw [if_neg (by simp [hs])]

theorem finditerFrom_nil (i : Nat) : finditerFrom [] i = [] := rfl

theorem finditerFrom_cons (c : Nat) (rest : List Nat) (i : Nat) :
    finditerFrom (c :: rest) i =
      if isWordStart c then
        ⟨c :: rest.takeWhile isWordCont, i,
          i + 1 + (rest.takeWhile isWordCont).length⟩
          :: finditerFrom (rest.dropWhile isWordCont)
              (i + 1 + (rest.takeWhile isWordCont).length)
      else finditerFrom rest (i + 1) := by
  by_cases h : isWordStart c = true
  · rw [if_pos h]
    show (if isWordStart c then finditerGo rest (i + 1) (some ([c], i)) else _) = _
    rw [if_pos h]
    rw [finditerGo_word rest [c] i (i + 1) (by simp)]
    simp [List.singleton_append]
  · rw [if_neg h]
    show (if isWordStart c then _ else finditerGo rest (i + 1) none) = _
    rw [if_neg h]
    rfl

/-! ## pySlice helpers -/

theorem pySlice_zero_length (s : List Nat) : pySlice s 0 s.length = s := by
  simp [pySlice]

theorem pySlice_eq_nil {s : List Nat} {a b : Nat} (h : s.length ≤ a) :
    pySlice s a b = [] := by
  simp [pySlice, List.drop_eq_nil_of_le h]

theorem take_add_split : ∀ (l : List Nat) (m n : Nat),
    l.take (m + n) = l.take m ++ (l.drop m).take n := by
  intro l
  induction l with
  | nil => intro m n; simp
  | cons x xs ih =>
    intro m n
    cases m with
    | zero => simp
    | succ m =>
      rw [show m + 1 + n = (m + n) + 1 by omega]
      simp only [List.take_succ_cons, List.drop_succ_cons, List.cons_append]
      rw [ih m n]

theorem pySlice_glue {s : List Nat} {a b c : Nat} (hab : a ≤ b) (hbc : b ≤ c) :
    pySlice s a b ++ pySlice s b c = pySlice s a c := by
  unfold pySlice
  have hd : s.drop b = (s.drop a).drop (b - a) := by
    rw [List.drop_drop]
    congr 1
    omega
  rw [hd, show c - a = (b - a) + (c - b) by omega, take_add_split]

/-! ## finditer produces well-formed matches -/

theorem MatchesOK_weaken {text : List Nat} {lb lb2 : Nat} {ms : List RegexMatch}
    (h : MatchesOK text lb ms) (hle : lb2 ≤ lb) : MatchesOK text lb2 ms := by
  cases ms with
  | nil => trivial
  | cons m ms =>
    obtain ⟨h1, h2, h3, h4, h5⟩ := h
    exact ⟨le_trans hle h1, h2, h3, h4, h5⟩

theorem finditer_matchesOK :
    ∀ (n : Nat) (s : List Nat) (i : Nat) (text : List Nat),
      s.length ≤ n → text.drop i = s → MatchesOK text i (finditerFrom s i) := by
  intro n
  induction n with
  | zero =>
    intro s i text hn _
    have hs : s = [] := List.length_eq_zero.mp (Nat.le_zero.mp hn)
    subst hs
    rw [finditerFrom_nil]
    trivial
  | succ n ih =>
    intro s i text hn hdrop
    cases s with
    | nil => rw [finditerFrom_nil]; trivial
    | cons c rest =>
      rw [finditerFrom_cons]
      have hlen : text.length = i + rest.length + 1 := by
        have hl := congrArg List.length hdrop
        simp only [List.length_drop, List.length_cons] at hl
        omega
      by_cases h : isWordStart c = true
      · rw [if_pos h]
        refine ⟨le_refl i, ?_, ?_, ?_, ?_⟩
        · show i ≤ i + 1 + (rest.takeWhile isWordCont).length
          omega
        · show i + 1 + (rest.takeWhile isWordCont).length ≤ text.length
          have htw := length_takeWhile_le isWordCont rest
          omega
        · show pySlice text i (i + 1 + (rest.takeWhile isWordCont).length)
            = c :: rest.takeWhile isWordCont
          unfold pySlice
          rw [show i + 1 + (rest.takeWhile isWordCont).length - i
            = (rest.takeWhile isWordCont).length + 1 by omega]
          rw [hdrop, List.take_succ_cons, take_length_takeWhile]
        · apply ih (rest.dropWhile isWordCont) (i + 1 + (rest.takeWhile isWordCont).length) text
          · have h1 := length_dropWhile_le isWordCont rest
            simp only [List.length_cons] at hn
            omega
          · rw [show i + 1 + (rest.takeWhile isWordCont).length
              = i + ((rest.takeWhile isWordCont).length + 1) by omega]
            rw [← List.drop_drop, hdrop, List.drop_succ_cons, drop_length_takeWhile]
      · rw [if_neg h]
        have hrec : MatchesOK text (i + 1) (finditerFrom rest (i + 1)) := by
          apply ih rest (i + 1) text
          · simp only [List.length_cons] at hn
            omega
          · rw [← List.drop_drop, hdrop]
            simp
        exact MatchesOK_weaken hrec (by omega)

/-! ## fillTokens: reconstruction, contiguity, word extraction -/

theorem fillTokens_flatten :
    ∀ (ms : List RegexMatch) (lb : Nat) (text : List Nat),
      MatchesOK text lb ms → lb ≤ text.length →
      ((fillTokens text ms lb).map Token.text).flatten = pySlice text lb text.length := by
  intro ms
  induction ms with
  | nil =>
    intro lb text _ hlb
    unfold fillTokens
    by_cases h : lb < text.length
    · rw [if_pos h]; simp
    · rw [if_neg h]
      simp only [List.map_nil, List.flatten_nil]
      exact (pySlice_eq_nil (by omega)).symm
  | cons m ms ih =>
    intro lb text hok hlb
    obtain ⟨h1, h2, h3, h4, h5⟩ := hok
    unfold fillTokens
    by_cases h : lb < m.start
    · rw [if_pos h]
      simp only [List.singleton_append, List.map_cons, List.flatten_cons]
      rw [ih m.endPos text h5 h3, ← h4, pySlice_glue h2 h3,
        pySlice_glue (le_of_lt h) (le_trans h2 h3)]
    · rw [if_neg h]
      have hlb' : lb = m.start := le_antisymm h1 (not_lt.mp h)
      simp only [List.nil_append, List.map_cons, List.flatten_cons]
      rw [ih m.endPos text h5 h3, ← h4, hlb']
      exact pySlice_glue h2 h3

theorem fillTokens_eq_nil_iff (text : List Nat) (ms : List RegexMatch) (lb : Nat) :
    fillTokens text ms lb = [] ↔ (ms = [] ∧ text.length ≤ lb) := by
  cases ms with
  | nil =>
    unfold fillTokens
    by_cases h : lb < text.length
    · rw [if_pos h]; simp; omega
    · rw [if_neg h]; simp; omega
  | cons m ms =>
    unfold fillTokens
    constructor
    · intro h
      exact absurd h (by simp)
    · intro h
      exact absurd h.1 (by simp)

theorem fillTokens_head_start {text : List Nat} {ms : List RegexMatch} {lb : Nat}
    {t : Token} {ts : List Token}
    (hok : MatchesOK text lb ms) (h : fillTokens text ms lb = t :: ts) :
    t.start = lb := by
  cases ms with
  | nil =>
    unfold fillTokens at h
    by_cases hl : lb < text.length
    · rw [if_pos hl] at h
      obtain ⟨rfl, rfl⟩ := List.cons.inj h
      rfl
    · rw [if_neg hl] at h
      exact absurd h (by simp)
  | cons m ms =>
    obtain ⟨h1, _, _, _, _⟩ := hok
    unfold fillTokens at h
    by_cases hl : lb < m.start
    · rw [if_pos hl, List.singleton_append] at h
      obtain ⟨rfl, rfl⟩ := List.cons.inj h
      rfl
    · rw [if_neg hl, List.nil_append] at h
      obtain ⟨rfl, rfl⟩ := List.cons.inj h
      exact (le_antisymm h1 (not_lt.mp hl)).symm

theorem fillTokens_getLast :
    ∀ (ms : List RegexMatch) (lb : Nat) (text : List Nat),
      MatchesOK text lb ms → lb ≤ text.length → fillTokens text ms lb ≠ [] →
      ((fillTokens text ms lb).getLast?).map Token.endPos = some text.length := by
  intro ms
  induction ms with
  | nil =>
    intro lb text _ hlb hne
    unfold fillTokens at hne ⊢
    by_cases h : lb < text.length
    · rw [if_pos h]
      simp
    · rw [if_neg h] at hne
      exact absurd rfl hne
  | cons m ms ih =>
    intro lb text hok hlb hne
    obtain ⟨h1, h2, h3, h4, h5⟩ := hok
    unfold fillTokens
    by_cases hrec : fillTokens text ms m.endPos = []
    · have hmsnil := (fillTokens_eq_nil_iff text ms m.endPos).mp hrec
      have hend : m.endPos = text.length := le_antisymm h3 hmsnil.2
      rw [hrec]
      by_cases hl : lb < m.start
      · rw [if_pos hl]
        simp [hend]
      · rw [if_neg hl]
        simp [hend]
    · have ihres := ih m.endPos text h5 h3 hrec
      have step : ((Token.mk m.text m.start m.endPos true
            :: fillTokens text ms m.endPos).getLast?).map Token.endPos
          = some text.length := by
        rw [show (Token.mk m.text m.start m.endPos true :: fillTokens text ms m.endPos)
          = [Token.mk m.text m.start m.endPos true] ++ fillTokens text ms m.endPos
          from rfl]
        rw [List.getLast?_append]
        cases hfl : (fillTokens text ms m.endPos).getLast? with
        | none => exact absurd (List.getLast?_eq_none_iff.mp hfl) hrec
        | some u =>
          rw [hfl] at ihres
          simpa using ihres
      by_cases hl : lb < m.start
      · rw [if_pos hl, List.singleton_append]
        rw [List.getLast?_cons_cons]
        exact step
      · rw [if_neg hl, List.nil_append]
        exact step

theorem fillTokens_chain :
    ∀ (ms : List RegexMatch) (lb : Nat) (text : List Nat), MatchesOK text lb ms →
      List.Chain' (fun a b => a.endPos = b.start) (fillTokens text ms lb) := by
  intro ms
  induction ms with
  | nil =>
    intro lb text _
    unfold fillTokens
    by_cases h : lb < text.length
    · rw [if_pos h]; exact List.chain'_singleton _
    · rw [if_neg h]; exact List.chain'_nil
  | cons m ms ih =>
    intro lb text hok
    obtain ⟨h1, h2, h3, h4, h5⟩ := hok
    have hwr : List.Chain' (fun a b => a.endPos = b.start)
        (Token.mk m.text m.start m.endPos true :: fillTokens text ms m.endPos) := by
      rw [List.chain'_cons']
      refine ⟨?_, ih m.endPos text h5⟩
      intro b hb
      cases hfill : fillTokens text ms m.endPos with
      | nil => rw [hfill] at hb; simp at hb
      | cons t ts =>
        rw [hfill] at hb
        simp only [List.head?_cons, Option.mem_some_iff] at hb
        subst hb
        exact (fillTokens_head_start h5 hfill).symm
    unfold fillTokens
    by_cases hl : lb < m.start
    · rw [if_pos hl, List.singleton_append, List.chain'_cons]
      exact ⟨rfl, hwr⟩
    · rw [if_neg hl, List.nil_append]
      exact hwr

theorem fillTokens_token_spec :
    ∀ (ms : List RegexMatch) (lb : Nat) (text : List Nat),
      MatchesOK text lb ms → lb ≤ text.length →
      ∀ t ∈ fillTokens text ms lb,
        pySlice text t.start t.endPos = t.text
        ∧ t.start ≤ t.endPos ∧ t.endPos ≤ text.length := by
  intro ms
  induction ms with
  | nil =>
    intro lb text _ hlb t ht
    unfold fillTokens at ht
    by_cases h : lb < text.length
    · rw [if_pos h] at ht
      simp only [List.mem_singleton] at ht
      subst ht
      exact ⟨rfl, le_of_lt h, le_refl _⟩
    · rw [if_neg h] at ht
      exact absurd ht (by simp)
  | cons m ms ih =>
    intro lb text hok hlb t ht
    obtain ⟨h1, h2, h3, h4, h5⟩ := hok
    unfold fillTokens at ht
    by_cases hl : lb < m.start
    · rw [if_pos hl, List.singleton_append, List.mem_cons, List.mem_cons] at ht
      rcases ht with rfl | rfl | ht
      · exact ⟨rfl, le_of_lt hl, le_trans h2 h3⟩
      · exact ⟨h4, h2, h3⟩
      · exact ih m.endPos text h5 h3 t ht
    · rw [if_neg hl, List.nil_append, List.mem_cons] at ht
      rcases ht with rfl | ht
      · exact ⟨h4, h2, h3⟩
      · exact ih m.endPos text h5 h3 t ht

theorem fillTokens_filter_words :
    ∀ (ms : List RegexMatch) (lb : Nat) (text : List Nat),
      (fillTokens text ms lb).filter (fun t => t.is_word) =
        ms.map (fun m => Token.mk m.text m.start m.endPos true) := by
  intro ms
  induction ms with
  | nil =>
    intro lb text
    unfold fillTokens
    by_cases h : lb < text.length
    · rw [if_pos h]; rfl
    · rw [if_neg h]; rfl
  | cons m ms ih =>
    intro lb text
    unfold fillTokens
    by_cases hl : lb < m.start
    · rw [if_pos hl, List.singleton_append]
      rw [List.filter_cons_of_neg (by simp), List.filter_cons_of_pos (by rfl)]
      rw [ih m.endPos text, List.map_cons]
    · rw [if_neg hl, List.nil_append]
      rw [List.filter_cons_of_pos (by rfl)]
      rw [ih m.endPos text, List.map_cons]

/-! ## C1, C2: tokenize reconstruction and contiguity -/

/-- C1: concatenating the `text` fields of `tokenize(s)` in order yields
exactly `s`. -/
theorem c1_tokenize_reconstruction (s : List Nat) :
    ((tokenize s).map Token.text).flatten = s := by
  have hok : MatchesOK s 0 (finditerFrom s 0) :=
    finditer_matchesOK s.length s 0 s le_rfl (by simp)
  have h := fillTokens_flatten (finditerFrom s 0) 0 s hok (Nat.zero_le _)
  rw [show tokenize s = fillTokens s (finditerFrom s 0) 0 from rfl, h,
    pySlice_zero_length]

/-- C2: consecutive tokens satisfy `end = start` of the next; for
non-empty input the first token starts at 0 and the last ends at the text
length; tokenize returns no tokens exactly for the empty string. -/
theorem c2_tokenize_contiguity (s : List Nat) :
    List.Chain' (fun a b => a.endPos = b.start) (tokenize s)
    ∧ (s ≠ [] →
        (tokenize s).head?.map Token.start = some 0
        ∧ ((tokenize s).getLast?).map Token.endPos = some s.length)
    ∧ (tokenize s = [] ↔ s = []) := by
  have hok : MatchesOK s 0 (finditerFrom s 0) :=
    finditer_matchesOK s.length s 0 s le_rfl (by simp)
  have htok : tokenize s = fillTokens s (finditerFrom s 0) 0 := rfl
  have hnil : tokenize s = [] ↔ s = [] := by
    rw [htok, fillTokens_eq_nil_iff]
    constructor
    · intro h
      exact List.length_eq_zero.mp (Nat.le_zero.mp h.2)
    · intro h
      subst h
      exact ⟨rfl, Nat.le_refl 0⟩
  refine ⟨?_, ?_, hnil⟩
  · rw [htok]
    exact fillTokens_chain _ 0 s hok
  · intro hs
    have hne : tokenize s ≠ [] := fun h => hs (hnil.mp h)
    constructor
    · cases he : tokenize s with
      | nil => exact absurd he hne
      | cons t ts =>
        have he2 : fillTokens s (finditerFrom s 0) 0 = t :: ts := by
          rw [← htok]
          exact he
        simp [fillTokens_head_start hok he2]
    · rw [htok]
      apply fillTokens_getLast _ 0 s hok (Nat.zero_le _)
      rw [← htok]
      exact hne

/-- C2 witness: the single-letter text "а" tokenizes to tokens starting
at 0 and ending at the text length. -/
theorem c2_tokenize_contiguity_witness :
    (tokenize [0x430]).head?.map Token.start = some 0
    ∧ ((tokenize [0x430]).getLast?).map Token.endPos = some 1 :=
  (c2_tokenize_contiguity [0x430]).2.1 (by decide)

/-! ## C3: annotation stages -/

/-- C3: every token of `annotate` carries the stage dictated by the fixed
precedence known > learning > new on its normalized form, and every
non-word token carries `NEW` whatever the sets contain. -/
theorem c3_annotate_stages (text : List Nat) (known_words learning_words : List (List Nat))
    (t : AnnotatedToken) (ht : t ∈ (annotate text known_words learning_words).tokens) :
    t.stage = if t.is_word = true then
        (if t.normalized ∈ known_words then WordStage.KNOWN
         else if t.normalized ∈ learning_words then WordStage.LEARNING
         else WordStage.NEW)
      else WordStage.NEW := by
  simp only [annotate] at ht
  obtain ⟨tok, _, rfl⟩ := List.mem_map.mp ht
  rfl

/-- C3 witness: in text "а" with "а" in both sets, the word token is
annotated `KNOWN`. -/
theorem c3_annotate_stages_witness :
    (AnnotatedToken.mk (Token.mk [0x430] 0 1 true) WordStage.KNOWN).stage
      = if (AnnotatedToken.mk (Token.mk [0x430] 0 1 true) WordStage.KNOWN).is_word = true then
          (if (AnnotatedToken.mk (Token.mk [0x430] 0 1 true) WordStage.KNOWN).normalized
              ∈ [[0x430]] then WordStage.KNOWN
           else if (AnnotatedToken.mk (Token.mk [0x430] 0 1 true) WordStage.KNOWN).normalized
              ∈ [[0x430]] then WordStage.LEARNING
           else WordStage.NEW)
        else WordStage.NEW :=
  c3_annotate_stages [0x430] [[0x430]] [[0x430]] _ (by decide)

/-! ## C8: one normalization everywhere -/

theorem extract_words_eq_words_normalized (text : List Nat) :
    extract_words text =
      ((tokenize text).filter (fun t => t.is_word)).map Token.normalized := by
  rw [show tokenize text = fillTokens text (finditerFrom text 0) 0 from rfl,
    fillTokens_filter_words, List.map_map]
  rfl

/-- C8: the normalized form used for set lookup is the lowercased,
accent-stripped text (lowercasing and accent-stripping commute, so the
spec's `lowercase(stripAccents(text))` is the same function), and
`extract_words` — the basis of both Aggregator operations — produces
exactly the Annotator's normalized forms of the word tokens. -/
theorem c8_normalization_consistent :
    (∀ t : Token, t.normalized = lower (strip_accents t.text))
    ∧ (∀ text : List Nat,
        extract_words text =
          ((tokenize text).filter (fun t => t.is_word)).map Token.normalized) :=
  ⟨fun t => strip_accents_lower t.text, extract_words_eq_words_normalized⟩

/-! ## C6: known percentage -/

theorem calculate_known_percentage_spec (text : List Nat) (known_words : List (List Nat)) :
    0 ≤ calculate_known_percentage text known_words
    ∧ calculate_known_percentage text known_words ≤ 100
    ∧ ((tokenize text).filter (fun t => t.is_word) = [] →
        calculate_known_percentage text known_words = 0)
    ∧ ((tokenize text).filter (fun t => t.is_word) ≠ [] →
        calculate_known_percentage text known_words =
          ((((tokenize text).filter (fun t => t.is_word)).countP
              (fun t => decide (t.normalized ∈ known_words)) : ℚ)
            / ((tokenize text).filter (fun t => t.is_word)).length) * 100) := by
  have hew := extract_words_eq_words_normalized text
  set wts := (tokenize text).filter (fun t => t.is_word) with hwts
  have hcnt : (extract_words text).countP (fun w => decide (w ∈ known_words))
      = wts.countP (fun t => decide (t.normalized ∈ known_words)) := by
    rw [hew, List.countP_map]
    rfl
  have hlenW : (extract_words text).length = wts.length := by
    rw [hew, List.length_map]
  by_cases hnil : extract_words text = []
  · have hwnil : wts = [] := by
      rw [hew, List.map_eq_nil_iff] at hnil
      exact hnil
    have hval : calculate_known_percentage text known_words = 0 := by
      simp only [calculate_known_percentage]
      rw [if_pos hnil]
    exact ⟨by rw [hval], by rw [hval]; norm_num, fun _ => hval,
      fun hne => absurd hwnil hne⟩
  · have hwne : wts ≠ [] := by
      intro h
      apply hnil
      rw [hew, h]
      rfl
    have hval : calculate_known_percentage text known_words
        = ((wts.countP (fun t => decide (t.normalized ∈ known_words)) : ℚ)
            / wts.length) * 100 := by
      simp only [calculate_known_percentage]
      rw [if_neg hnil, hcnt, hlenW]
    have hcle : wts.countP (fun t => decide (t.normalized ∈ known_words)) ≤ wts.length :=
      List.countP_le_length _
    have hlq : (0 : ℚ) < wts.length := by
      have hp : 0 < wts.length := List.length_pos.mpr hwne
      exact_mod_cast hp
    refine ⟨?_, ?_, fun h => absurd h hwne, fun _ => hval⟩
    · rw [hval]
      positivity
    · rw [hval]
      have hdiv : ((wts.countP (fun t => decide (t.normalized ∈ known_words)) : ℚ)
          / wts.length) ≤ 1 := by
        rw [div_le_one hlq]
        exact_mod_cast hcle
      calc ((wts.countP (fun t => decide (t.normalized ∈ known_words)) : ℚ)
            / wts.length) * 100 ≤ 1 * 100 :=
          mul_le_mul_of_nonneg_right hdiv (by norm_num)
        _ = 100 := by norm_num

theorem known_percentage_scenario :
    calculate_known_percentage
      [0x41F, 0x440, 0x438, 0x432, 0x456, 0x442, 0x20, 0x441, 0x432, 0x456, 0x442]
      [[0x43F, 0x440, 0x438, 0x432, 0x456, 0x442]] = 50 := by
  have hw : extract_words
      [0x41F, 0x440, 0x438, 0x432, 0x456, 0x442, 0x20, 0x441, 0x432, 0x456, 0x442]
      = [[0x43F, 0x440, 0x438, 0x432, 0x456, 0x442], [0x441, 0x432, 0x456, 0x442]] := by
    decide
  have hc : List.countP
      (fun w => decide (w ∈ [[0x43F, 0x440, 0x438, 0x432, 0x456, 0x442]]))
      [[0x43F, 0x440, 0x438, 0x432, 0x456, 0x442], [0x441, 0x432, 0x456, 0x442]]
      = 1 := by decide
  simp only [calculate_known_percentage, hw]
  rw [if_neg (by simp), hc]
  norm_num

/-- C6: the known percentage is the word-token count (with multiplicity)
whose normalized form is in the known set, over the total word-token
count, times 100; it lies in [0, 100] and is exactly 0 for a text with no
word tokens; on "Привіт світ" with known {"привіт"} it is exactly 50.
Python float arithmetic is modelled exactly over ℚ. -/
theorem c6_calculate_known_percentage :
    (∀ (text : List Nat) (known_words : List (List Nat)),
      0 ≤ calculate_known_percentage text known_words
      ∧ calculate_known_percentage text known_words ≤ 100
      ∧ ((tokenize text).filter (fun t => t.is_word) = [] →
          calculate_known_percentage text known_words = 0)
      ∧ ((tokenize text).filter (fun t => t.is_word) ≠ [] →
          calculate_known_percentage text known_words =
            ((((tokenize text).filter (fun t => t.is_word)).countP
                (fun t => decide (t.normalized ∈ known_words)) : ℚ)
              / ((tokenize text).filter (fun t => t.is_word)).length) * 100))
    ∧ calculate_known_percentage
        [0x41F, 0x440, 0x438, 0x432, 0x456, 0x442, 0x20, 0x441, 0x432, 0x456, 0x442]
        [[0x43F, 0x440, 0x438, 0x432, 0x456, 0x442]] = 50 :=
  ⟨calculate_known_percentage_spec, known_percentage_scenario⟩

/-- C6 witness: a text with no word tokens has percentage exactly 0. -/
theorem c6_calculate_known_percentage_witness :
    calculate_known_percentage [] [] = 0 :=
  (c6_calculate_known_percentage.1 [] []).2.2.1 (by decide)

/-! ## C10: per-line word tokens equal whole-text word tokens -/

theorem annotate_filter_words (text : List Nat) (known_words learning_words : List (List Nat)) :
    ((annotate text known_words learning_words).tokens).filter (fun t => t.is_word)
      = (finditerFrom text 0).map (wordAnnotated known_words learning_words) := by
  simp only [annotate]
  rw [List.filter_map]
  rw [show ((fun t : AnnotatedToken => t.is_word) ∘ (fun token : Token =>
      (⟨token,
        if token.is_word = true then
          if token.normalized ∈ known_words then WordStage.KNOWN
          else if token.normalized ∈ learning_words then WordStage.LEARNING
          else WordStage.NEW
        else WordStage.NEW⟩ : AnnotatedToken)))
    = (fun t : Token => t.is_word) from rfl]
  rw [show tokenize text = fillTokens text (finditerFrom text 0) 0 from rfl,
    fillTokens_filter_words, List.map_map]
  apply List.map_congr_left
  intro m _
  rfl

theorem finditerFrom_shift :
    ∀ (n : Nat) (s : List Nat), s.length ≤ n → ∀ i : Nat,
      finditerFrom s i = (finditerFrom s 0).map (shiftM i) := by
  intro n
  induction n with
  | zero =>
    intro s hn i
    have hs : s = [] := List.length_eq_zero.mp (Nat.le_zero.mp hn)
    subst hs
    rfl
  | succ n ih =>
    intro s hn i
    cases s with
    | nil => rfl
    | cons c rest =>
      rw [finditerFrom_cons, finditerFrom_cons]
      by_cases h : isWordStart c = true
      · rw [if_pos h, if_pos h, List.map_cons]
        have hdw : (rest.dropWhile isWordCont).length ≤ n := by
          have h1 := length_dropWhile_le isWordCont rest
          simp only [List.length_cons] at hn
          omega
        congr 1
        · simp only [shiftM, RegexMatch.mk.injEq]
          exact ⟨trivial, by omega, by omega⟩
        · rw [ih (rest.dropWhile isWordCont) hdw
            (i + 1 + (rest.takeWhile isWordCont).length)]
          rw [ih (rest.dropWhile isWordCont) hdw
            (0 + 1 + (rest.takeWhile isWordCont).length)]
          rw [List.map_map]
          apply List.map_congr_left
          intro m _
          cases m
          simp only [Function.comp, shiftM, RegexMatch.mk.injEq]
          exact ⟨trivial, by omega, by omega⟩
      · rw [if_neg h, if_neg h]
        have hr : rest.length ≤ n := by
          simp only [List.length_cons] at hn
          omega
        rw [ih rest hr (i + 1), ih rest hr (0 + 1), List.map_map]
        apply List.map_congr_left
        intro m _
        cases m
        simp only [Function.comp, shiftM, RegexMatch.mk.injEq]
        exact ⟨trivial, by omega, by omega⟩

theorem finditerFrom_split :
    ∀ (n : Nat) (a : List Nat), a.length ≤ n → ∀ (b : List Nat) (i : Nat),
      finditerFrom (a ++ 0x0A :: b) i
        = finditerFrom a i ++ finditerFrom b (i + a.length + 1) := by
  intro n
  induction n with
  | zero =>
    intro a hn b i
    have ha : a = [] := List.length_eq_zero.mp (Nat.le_zero.mp hn)
    subst ha
    rw [List.nil_append, finditerFrom_cons, if_neg (by decide), finditerFrom_nil,
      List.nil_append]
    simp
  | succ n ih =>
    intro a hn b i
    cases a with
    | nil =>
      rw [List.nil_append, finditerFrom_cons, if_neg (by decide), finditerFrom_nil,
        List.nil_append]
      simp
    | cons c rest =>
      rw [List.cons_append, finditerFrom_cons, finditerFrom_cons]
      have hnl : isWordCont 0x0A = false := by decide
      by_cases h : isWordStart c = true
      · rw [if_pos h, if_pos h]
        rw [takeWhile_append_break rest b hnl, dropWhile_append_break rest b hnl]
        have hdw : (rest.dropWhile isWordCont).length ≤ n := by
          have h1 := length_dropWhile_le isWordCont rest
          simp only [List.length_cons] at hn
          omega
        rw [ih (rest.dropWhile isWordCont) hdw b
          (i + 1 + (rest.takeWhile isWordCont).length)]
        rw [List.cons_append]
        have hlen : (rest.takeWhile isWordCont).length
            + (rest.dropWhile isWordCont).length = rest.length := by
          conv_rhs => rw [← List.takeWhile_append_dropWhile (p := isWordCont) (l := rest)]
          rw [List.length_append]
        rw [show i + 1 + (rest.takeWhile isWordCont).length
            + (rest.dropWhile isWordCont).length + 1
          = i + (c :: rest).length + 1 by simp only [List.length_cons]; omega]
      · rw [if_neg h, if_neg h]
        have hr : rest.length ≤ n := by
          simp only [List.length_cons] at hn
          omega
        rw [ih rest hr b (i + 1)]
        rw [show i + 1 + rest.length + 1 = i + (c :: rest).length + 1 by
          simp only [List.length_cons]; omega]

theorem splitOnNl_ne_nil (s : List Nat) : splitOnNl s ≠ [] := by
  cases s with
  | nil => simp [splitOnNl]
  | cons c rest =>
    unfold splitOnNl
    by_cases h : c = 0x0A
    · rw [if_pos h]; simp
    · rw [if_neg h]
      cases hs : splitOnNl rest <;> simp

theorem joinNl_splitOnNl : ∀ s : List Nat, joinNl (splitOnNl s) = s := by
  intro s
  induction s with
  | nil => rfl
  | cons c rest ih =>
    unfold splitOnNl
    by_cases h : c = 0x0A
    · rw [if_pos h]
      subst h
      cases hs : splitOnNl rest with
      | nil => exact absurd hs (splitOnNl_ne_nil rest)
      | cons l ls =>
        show joinNl ([] :: l :: ls) = _
        show [] ++ 0x0A :: joinNl (l :: ls) = _
        rw [List.nil_append, ← hs, ih]
    · rw [if_neg h]
      cases hs : splitOnNl rest with
      | nil => exact absurd hs (splitOnNl_ne_nil rest)
      | cons l ls =>
        cases ls with
        | nil =>
          have hrest : l = rest := by
            have hj : joinNl (splitOnNl rest) = rest := ih
            rw [hs] at hj
            exact hj
          show c :: l = c :: rest
          rw [hrest]
        | cons l2 ls2 =>
          show joinNl ((c :: l) :: l2 :: ls2) = c :: rest
          show (c :: l) ++ 0x0A :: joinNl (l2 :: ls2) = c :: rest
          have hj : l ++ 0x0A :: joinNl (l2 :: ls2) = rest := by
            have hj0 : joinNl (splitOnNl rest) = rest := ih
            rw [hs] at hj0
            exact hj0
          rw [List.cons_append, hj]

theorem line_words (known_words learning_words : List (List Nat)) (line : List Nat)
    (off : Nat) :
    (((annotate line known_words learning_words).tokens.map (shiftA off)).filter
        (fun t => t.is_word))
      = (finditerFrom line off).map (wordAnnotated known_words learning_words) := by
  rw [List.filter_map]
  rw [show ((fun t : AnnotatedToken => t.is_word) ∘ shiftA off)
    = (fun t : AnnotatedToken => t.is_word) from rfl]
  rw [annotate_filter_words]
  rw [finditerFrom_shift line.length line le_rfl off]
  rw [List.map_map, List.map_map]
  apply List.map_congr_left
  intro m _
  cases m
  rfl

theorem iterLines_words (known_words learning_words : List (List Nat)) :
    ∀ (lines : List (List Nat)) (off : Nat),
      ((iterLinesFrom known_words learning_words lines off).flatten).filter
          (fun t => t.is_word)
        = (finditerFrom (joinNl lines) off).map
            (wordAnnotated known_words learning_words) := by
  intro lines
  induction lines with
  | nil => intro off; rfl
  | cons line rest ih =>
    intro off
    cases rest with
    | nil =>
      simp only [iterLinesFrom, List.flatten_cons, List.flatten_nil, List.append_nil]
      exact line_words known_words learning_words line off
    | cons l2 ls =>
      show ((((annotate line known_words learning_words).tokens.map (shiftA off))
          :: iterLinesFrom known_words learning_words (l2 :: ls)
              (off + line.length + 1)).flatten).filter (fun t => t.is_word) = _
      rw [List.flatten_cons, List.filter_append,
        line_words known_words learning_words line off,
        ih (off + line.length + 1)]
      show _ = (finditerFrom (line ++ 0x0A :: joinNl (l2 :: ls)) off).map _
      rw [finditerFrom_split line.length line le_rfl (joinNl (l2 :: ls)) off,
        List.map_append]

/-- C10: the word tokens yielded by `iter_lines_annotated`, concatenated
across lines, are exactly the word tokens of `annotate` on the whole
text — same texts, same absolute offsets, same stages — because a newline
can never be part of a word match. -/
theorem c10_iter_lines_words_agree (text : List Nat)
    (known_words learning_words : List (List Nat)) :
    ((iter_lines_annotated text known_words learning_words).flatten).filter
        (fun t => t.is_word)
      = ((annotate text known_words learning_words).tokens).filter
          (fun t => t.is_word) := by
  show ((iterLinesFrom known_words learning_words (splitOnNl text) 0).flatten).filter
      (fun t => t.is_word) = _
  rw [iterLines_words known_words learning_words (splitOnNl text) 0, joinNl_splitOnNl,
    annotate_filter_words]

/-! ## C5: line view carries absolute offsets -/

theorem iterLinesFrom_get (known_words learning_words : List (List Nat)) :
    ∀ (lines : List (List Nat)) (off j : Nat),
      (iterLinesFrom known_words learning_words lines off)[j]?
        = (lines[j]?).map (fun line =>
            (annotate line known_words learning_words).tokens.map
              (shiftA (off + priorLen lines j))) := by
  intro lines
  induction lines with
  | nil => intro off j; simp [iterLinesFrom]
  | cons line rest ih =>
    intro off j
    cases j with
    | zero =>
      show (((annotate line known_words learning_words).tokens.map (shiftA off))
          :: iterLinesFrom known_words learning_words rest (off + line.length + 1))[0]?
        = _
      rw [List.getElem?_cons_zero, List.getElem?_cons_zero]
      simp [priorLen]
    | succ j =>
      show (((annotate line known_words learning_words).tokens.map (shiftA off))
          :: iterLinesFrom known_words learning_words rest (off + line.length + 1))[j+1]?
        = _
      rw [List.getElem?_cons_succ, List.getElem?_cons_succ,
        ih (off + line.length + 1) j]
      have hp : priorLen (line :: rest) (j + 1)
          = line.length + 1 + priorLen rest j := by
        simp [priorLen, List.take_succ_cons]
      rw [hp]
      simp only [Nat.add_assoc]

theorem pySlice_append_left {line z : List Nat} {a b : Nat} (hb : b ≤ line.length) :
    pySlice (line ++ z) a b = pySlice line a b := by
  unfold pySlice
  by_cases hab : a ≤ line.length
  · rw [List.drop_append_of_le_length hab, List.take_append_of_le_length]
    simp only [List.length_drop]
    omega
  · have h1 : line.drop a = [] := List.drop_eq_nil_of_le (by omega)
    have h2 : b - a = 0 := by omega
    rw [h1, h2]
    simp

theorem pySlice_shift {text sfx : List Nat} {off s e : Nat} (hdrop : text.drop off = sfx) :
    pySlice text (off + s) (off + e) = pySlice sfx s e := by
  unfold pySlice
  rw [show off + e - (off + s) = e - s from by omega, ← List.drop_drop, hdrop]

theorem annotate_token_spec (text : List Nat) (known_words learning_words : List (List Nat)) :
    ∀ t ∈ (annotate text known_words learning_words).tokens,
      pySlice text t.start t.endPos = t.text
      ∧ t.start ≤ t.endPos ∧ t.endPos ≤ text.length := by
  intro t ht
  simp only [annotate] at ht
  obtain ⟨tok, htok, rfl⟩ := List.mem_map.mp ht
  have hok : MatchesOK text 0 (finditerFrom text 0) :=
    finditer_matchesOK text.length text 0 text le_rfl (by simp)
  have htok2 : tok ∈ fillTokens text (finditerFrom text 0) 0 := htok
  exact fillTokens_token_spec (finditerFrom text 0) 0 text hok (Nat.zero_le _) tok htok2

theorem iterLines_slice (known_words learning_words : List (List Nat)) :
    ∀ (lines : List (List Nat)) (off : Nat) (text : List Nat),
      text.drop off = joinNl lines →
      ∀ toks ∈ iterLinesFrom known_words learning_words lines off,
        ∀ t ∈ toks, pySlice text t.start t.endPos = t.text := by
  intro lines
  induction lines with
  | nil =>
    intro off text _ toks htoks
    simp [iterLinesFrom] at htoks
  | cons line rest ih =>
    intro off text hdrop toks htoks t ht
    have hstep : iterLinesFrom known_words learning_words (line :: rest) off
        = ((annotate line known_words learning_words).tokens.map (shiftA off))
          :: iterLinesFrom known_words learning_words rest (off + line.length + 1) := rfl
    rw [hstep] at htoks
    rcases List.mem_cons.mp htoks with rfl | htoks
    · obtain ⟨u, hu, rfl⟩ := List.mem_map.mp ht
      obtain ⟨hslice, hse, hel⟩ := annotate_token_spec line known_words learning_words u hu
      obtain ⟨z, hz⟩ : ∃ z, text.drop off = line ++ z := by
        cases rest with
        | nil =>
          refine ⟨[], ?_⟩
          rw [List.append_nil]
          exact hdrop
        | cons r2 rs => exact ⟨0x0A :: joinNl (r2 :: rs), hdrop⟩
      show pySlice text (u.start + off) (u.endPos + off) = u.text
      rw [show u.start + off = off + u.start from by omega,
        show u.endPos + off = off + u.endPos from by omega,
        pySlice_shift hz, pySlice_append_left hel, hslice]
    · apply ih (off + line.length + 1) text ?_ toks htoks t ht
      cases rest with
      | nil =>
        show text.drop (off + line.length + 1) = []
        rw [show off + line.length + 1 = off + (line.length + 1) from by omega,
          ← List.drop_drop, hdrop]
        show line.drop (line.length + 1) = []
        exact List.drop_eq_nil_of_le (by omega)
      | cons r2 rs =>
        have hd2 : text.drop off = line ++ 0x0A :: joinNl (r2 :: rs) := hdrop
        rw [show off + line.length + 1 = off + (line.length + 1) from by omega,
          ← List.drop_drop, hd2]
        rw [show line ++ 0x0A :: joinNl (r2 :: rs)
          = (line ++ [0x0A]) ++ joinNl (r2 :: rs) from by simp]
        exact List.drop_left' (by simp)

/-- C5: every token of `iter_lines_annotated` carries absolute offsets:
line `j`'s token list is the annotation of line `j` with every offset
shifted by the total length of the prior lines plus one per newline, so
slicing the original text at a token's offsets returns the token's text;
in "АБ\nВГ" the word token for "ВГ" has absolute start 3. -/
theorem c5_iter_lines_offsets :
    (∀ (text : List Nat) (known_words learning_words : List (List Nat)),
      (∀ j : Nat,
        (iter_lines_annotated text known_words learning_words)[j]?
          = ((splitOnNl text)[j]?).map (fun line =>
              (annotate line known_words learning_words).tokens.map
                (shiftA (priorLen (splitOnNl text) j))))
      ∧ (∀ toks ∈ iter_lines_annotated text known_words learning_words,
          ∀ t ∈ toks, pySlice text t.start t.endPos = t.text))
    ∧ iter_lines_annotated [0x410, 0x411, 0x0A, 0x412, 0x413] [] []
        = [[⟨⟨[0x410, 0x411], 0, 2, true⟩, WordStage.NEW⟩],
           [⟨⟨[0x412, 0x413], 3, 5, true⟩, WordStage.NEW⟩]] := by
  refine ⟨fun text known_words learning_words => ⟨?_, ?_⟩, by decide⟩
  · intro j
    have h := iterLinesFrom_get known_words learning_words (splitOnNl text) 0 j
    simpa [iter_lines_annotated] using h
  · intro toks htoks t ht
    exact iterLines_slice known_words learning_words (splitOnNl text) 0 text
      (by rw [List.drop_zero, joinNl_splitOnNl]) toks htoks t ht

/-- C5 witness: in "АБ\nВГ", slicing the original text at the shifted
offsets [3, 5) of the second line's word token returns "ВГ". -/
theorem c5_iter_lines_offsets_witness :
    pySlice [0x410, 0x411, 0x0A, 0x412, 0x413] 3 5 = [0x412, 0x413] :=
  (c5_iter_lines_offsets.1 [0x410, 0x411, 0x0A, 0x412, 0x413] [] []).2
    [⟨⟨[0x412, 0x413], 3, 5, true⟩, WordStage.NEW⟩] (by decide)
    ⟨⟨[0x412, 0x413], 3, 5, true⟩, WordStage.NEW⟩ (by decide)
